import Mathlib

/-!
Verification of the AirBuddy time-series chart layout engine.

The definitions below are a shallow embedding of the chart scripts under
`public/` (`chart_core.js`, `chart.js`, and the unnamed chart iterations).
JavaScript numbers are modelled as exact rationals (`ℚ`); a JavaScript value
that can also be `null` or `undefined` is modelled by the `JSVal` type, and a
JavaScript expression whose value can be non-finite (`NaN`, `±Infinity`) is
modelled as `Option ℚ` with `none` for the non-finite outcomes.
-/

/-- A JSON-array entry as the chart scripts receive it: a (finite) number,
`null`, or `undefined` (the value of an out-of-bounds array read). -/
inductive JSVal where
  | num (q : ℚ)
  | jnull
  | undef
  deriving DecidableEq

/-- `toFiniteNumber` from `public/chart_core.js` (same as `isFiniteNumber` in
the unnamed `chart.js` iteration): `Number(x)` followed by a finiteness check.
Note that JavaScript coerces `Number(null)` to `0` (finite), while
`Number(undefined)` is `NaN` (dropped). -/
def toFiniteNumber : JSVal → Option ℚ
  | JSVal.num q => some q
  | JSVal.jnull => some 0
  | JSVal.undef => none

/-- `arr[i]` on a JavaScript array: out-of-bounds reads yield `undefined`. -/
def atIdx (arr : List JSVal) (i : ℕ) : JSVal := arr.getD i JSVal.undef

/-- `niceStep` from `public/chart_core.js` (verbatim in `public/chart.js` and
the unnamed chart iterations): round a raw step up to the nearest member of
the 1/2/5/10 family.  `Math.floor(Math.log10 x)` is `Int.log 10 x`; the
`Number.isFinite` part of the guard is vacuous over `ℚ`. -/
def niceStep (targetStep : ℚ) : ℚ :=
  if targetStep ≤ 0 then 1
  else
    let pow : ℚ := (10 : ℚ) ^ Int.log 10 targetStep
    let base : ℚ := targetStep / pow
    let nice : ℚ := if base ≤ 1 then 1 else if base ≤ 2 then 2 else if base ≤ 5 then 5 else 10
    nice * pow

/-- Axis bounds, `{min, max, step}` in the scripts. -/
structure Bounds where
  min : ℚ
  max : ℚ
  step : ℚ
  deriving DecidableEq

/-- `niceBounds` from `public/chart_core.js` lines 47-67 (identical in the
unnamed chart iterations): degenerate ranges are padded, then min/max are
snapped outward to multiples of the nice step.  The `Number.isFinite` guard
of the source returns `{0,1,1}` for non-finite inputs and is vacuous over
`ℚ`. -/
def niceBounds (minV maxV : ℚ) (ticks : ℕ) : Bounds :=
  let pad : ℚ := if minV = 0 then 1 else |minV| * (1 / 10)
  let lo : ℚ := if minV = maxV then minV - pad else minV
  let hi : ℚ := if minV = maxV then maxV + pad else maxV
  let span : ℚ := hi - lo
  let rawStep : ℚ := span / ((max 1 (ticks - 1) : ℕ) : ℚ)
  let step : ℚ := niceStep rawStep
  { min := (⌊lo / step⌋ : ℚ) * step
    max := (⌈hi / step⌉ : ℚ) * step
    step := step }

/-- `niceBounds` from `public/chart.js` lines 60-78: same computation, plus an
explicit guard that pushes `max` up by one step if the outward rounding
collapses `min == max`. -/
def niceBoundsCJ (minV maxV : ℚ) (ticks : ℕ) : Bounds :=
  let pad : ℚ := if minV = 0 then 1 else |minV| * (1 / 10)
  let lo : ℚ := if minV = maxV then minV - pad else minV
  let hi : ℚ := if minV = maxV then maxV + pad else maxV
  let span : ℚ := hi - lo
  let rawStep : ℚ := span / ((max 1 (ticks - 1) : ℕ) : ℚ)
  let step : ℚ := niceStep rawStep
  let niceMin : ℚ := (⌊lo / step⌋ : ℚ) * step
  let niceMax : ℚ := (⌈hi / step⌉ : ℚ) * step
  if niceMin = niceMax then { min := niceMin, max := niceMax + step, step := step }
  else { min := niceMin, max := niceMax, step := step }

/-- Pin down a concrete value of `Int.log 10` on `ℚ` from the two zpow
bounds. -/
theorem intLog10_eq {z : ℤ} {q : ℚ} (h0 : 0 < q) (h1 : (10 : ℚ) ^ z ≤ q)
    (h2 : q < (10 : ℚ) ^ (z + 1)) : Int.log 10 q = z := by
  have hb : (1 : ℕ) < 10 := by norm_num
  have hcast : ((10 : ℕ) : ℚ) = (10 : ℚ) := by norm_num
  have hle : z ≤ Int.log 10 q := by
    refine (Int.zpow_le_iff_le_log hb h0).mp ?_
    rw [hcast]; exact h1
  have hlt : Int.log 10 q < z + 1 := by
    refine (Int.lt_zpow_iff_log_lt hb h0).mp ?_
    rw [hcast]; exact h2
  omega

theorem niceStep_pos (t : ℚ) : 0 < niceStep t := by
  have hp : (0 : ℚ) < (10 : ℚ) ^ Int.log 10 t := by positivity
  unfold niceStep
  dsimp only
  split_ifs <;> nlinarith [hp]

theorem niceStep_ge (t : ℚ) (ht : 0 < t) : t ≤ niceStep t := by
  have hp : (0 : ℚ) < (10 : ℚ) ^ Int.log 10 t := by positivity
  have key : ∀ c : ℚ, t / (10 : ℚ) ^ Int.log 10 t ≤ c →
      t ≤ c * (10 : ℚ) ^ Int.log 10 t := by
    intro c hc
    rw [div_le_iff₀ hp] at hc
    exact hc
  have hlt : t < (10 : ℚ) ^ (Int.log 10 t + 1) := by
    have h := Int.lt_zpow_succ_log_self (b := 10) (by norm_num) t
    have hcast : ((10 : ℕ) : ℚ) = (10 : ℚ) := by norm_num
    rwa [hcast] at h
  have hbase : t / (10 : ℚ) ^ Int.log 10 t ≤ 10 := by
    rw [div_le_iff₀ hp]
    have h10 : (10 : ℚ) ^ (Int.log 10 t + 1) = 10 * (10 : ℚ) ^ Int.log 10 t := by
      rw [zpow_add_one₀ (by norm_num : (10:ℚ) ≠ 0)]; ring
    linarith [hlt, h10.symm.le]
  unfold niceStep
  rw [if_neg (not_le.mpr ht)]
  dsimp only
  split_ifs with h1 h2 h5
  · have h := key 1 h1; linarith
  · have h := key 2 h2; linarith
  · have h := key 5 h5; linarith
  · have h := key 10 hbase; linarith

theorem snapped_bounds {lo hi s : ℚ} (hs : 0 < s) (hlh : lo < hi) :
    (⌊lo / s⌋ : ℚ) * s ≤ lo ∧ hi ≤ (⌈hi / s⌉ : ℚ) * s ∧
    (⌊lo / s⌋ : ℚ) * s < (⌈hi / s⌉ : ℚ) * s := by
  have h1 : (⌊lo / s⌋ : ℚ) * s ≤ lo := by
    have hf := Int.floor_le (lo / s)
    calc (⌊lo / s⌋ : ℚ) * s ≤ lo / s * s := mul_le_mul_of_nonneg_right hf hs.le
    _ = lo := div_mul_cancel₀ lo hs.ne'
  have h2 : hi ≤ (⌈hi / s⌉ : ℚ) * s := by
    have hc := Int.le_ceil (hi / s)
    calc hi = hi / s * s := (div_mul_cancel₀ hi hs.ne').symm
    _ ≤ (⌈hi / s⌉ : ℚ) * s := mul_le_mul_of_nonneg_right hc hs.le
  exact ⟨h1, h2, lt_of_le_of_lt h1 (lt_of_lt_of_le hlh h2)⟩

theorem niceBounds_spec (minV maxV : ℚ) (ticks : ℕ) (h : minV ≤ maxV) :
    (niceBounds minV maxV ticks).min ≤ minV ∧ maxV ≤ (niceBounds minV maxV ticks).max ∧
    0 < (niceBounds minV maxV ticks).step ∧
    (niceBounds minV maxV ticks).min < (niceBounds minV maxV ticks).max ∧
    (∃ k : ℤ, (niceBounds minV maxV ticks).min = (k : ℚ) * (niceBounds minV maxV ticks).step) ∧
    (∃ k : ℤ, (niceBounds minV maxV ticks).max = (k : ℚ) * (niceBounds minV maxV ticks).step) := by
  unfold niceBounds
  dsimp only
  set pad : ℚ := if minV = 0 then 1 else |minV| * (1 / 10) with hpad
  set lo : ℚ := if minV = maxV then minV - pad else minV with hlodef
  set hi : ℚ := if minV = maxV then maxV + pad else maxV with hhidef
  have hpadpos : 0 < pad := by
    rw [hpad]
    split_ifs with h0
    · norm_num
    · have habs : 0 < |minV| := abs_pos.mpr h0
      nlinarith
  have hlo : lo ≤ minV := by
    rw [hlodef]
    split_ifs
    · linarith
    · exact le_refl _
  have hhi : maxV ≤ hi := by
    rw [hhidef]
    split_ifs
    · linarith
    · exact le_refl _
  have hlh : lo < hi := by
    rw [hlodef, hhidef]
    split_ifs with hEq
    · rw [hEq]; linarith
    · exact lt_of_le_of_ne h hEq
  have hstep : 0 < niceStep ((hi - lo) / ((max 1 (ticks - 1) : ℕ) : ℚ)) := niceStep_pos _
  obtain ⟨h1, h2, h3⟩ := snapped_bounds hstep hlh
  exact ⟨le_trans h1 hlo, le_trans hhi h2, hstep, h3, ⟨_, rfl⟩, ⟨_, rfl⟩⟩

theorem niceBoundsCJ_spec (minV maxV : ℚ) (ticks : ℕ) (h : minV ≤ maxV) :
    (niceBoundsCJ minV maxV ticks).min ≤ minV ∧ maxV ≤ (niceBoundsCJ minV maxV ticks).max ∧
    0 < (niceBoundsCJ minV maxV ticks).step ∧
    (niceBoundsCJ minV maxV ticks).min < (niceBoundsCJ minV maxV ticks).max ∧
    (∃ k : ℤ, (niceBoundsCJ minV maxV ticks).min = (k : ℚ) * (niceBoundsCJ minV maxV ticks).step) ∧
    (∃ k : ℤ, (niceBoundsCJ minV maxV ticks).max = (k : ℚ) * (niceBoundsCJ minV maxV ticks).step) := by
  unfold niceBoundsCJ
  dsimp only
  set pad : ℚ := if minV = 0 then 1 else |minV| * (1 / 10) with hpad
  set lo : ℚ := if minV = maxV then minV - pad else minV with hlodef
  set hi : ℚ := if minV = maxV then maxV + pad else maxV with hhidef
  have hpadpos : 0 < pad := by
    rw [hpad]
    split_ifs with h0
    · norm_num
    · have habs : 0 < |minV| := abs_pos.mpr h0
      nlinarith
  have hlo : lo ≤ minV := by
    rw [hlodef]
    split_ifs
    · linarith
    · exact le_refl _
  have hhi : maxV ≤ hi := by
    rw [hhidef]
    split_ifs
    · linarith
    · exact le_refl _
  have hlh : lo < hi := by
    rw [hlodef, hhidef]
    split_ifs with hEq
    · rw [hEq]; linarith
    · exact lt_of_le_of_ne h hEq
  have hstep : 0 < niceStep ((hi - lo) / ((max 1 (ticks - 1) : ℕ) : ℚ)) := niceStep_pos _
  obtain ⟨h1, h2, h3⟩ := snapped_bounds hstep hlh
  split_ifs with hcol
  · refine ⟨le_trans h1 hlo, ?_, hstep, ?_, ⟨_, rfl⟩, ?_⟩
    · dsimp only
      calc maxV ≤ (⌈hi / niceStep ((hi - lo) / ((max 1 (ticks - 1) : ℕ) : ℚ))⌉ : ℚ) *
          niceStep ((hi - lo) / ((max 1 (ticks - 1) : ℕ) : ℚ)) := le_trans hhi h2
      _ ≤ _ := by linarith
    · dsimp only
      linarith [hcol]
    · refine ⟨⌈hi / niceStep ((hi - lo) / ((max 1 (ticks - 1) : ℕ) : ℚ))⌉ + 1, ?_⟩
      dsimp only
      push_cast
      ring
  · exact ⟨le_trans h1 hlo, le_trans hhi h2, hstep, h3, ⟨_, rfl⟩, ⟨_, rfl⟩⟩

theorem niceStep_quarter : niceStep ((1 : ℚ) / 4) = 1 / 2 := by
  have hlog : Int.log 10 ((1 : ℚ) / 4) = -1 :=
    intLog10_eq (by norm_num) (by norm_num) (by norm_num)
  unfold niceStep
  rw [if_neg (by norm_num), hlog]
  norm_num

theorem niceStep_half : niceStep ((1 : ℚ) / 2) = 1 / 2 := by
  have hlog : Int.log 10 ((1 : ℚ) / 2) = -1 :=
    intLog10_eq (by norm_num) (by norm_num) (by norm_num)
  unfold niceStep
  rw [if_neg (by norm_num), hlog]
  norm_num

theorem niceBounds_five : niceBounds 5 5 5 = { min := 9/2, max := 11/2, step := 1/2 } := by
  unfold niceBounds
  norm_num [niceStep_quarter]

theorem niceBounds_zero : niceBounds 0 0 5 = { min := -1, max := 1, step := 1/2 } := by
  unfold niceBounds
  norm_num [niceStep_half]

theorem niceBounds_degenerate (v : ℚ) (ticks : ℕ) :
    (niceBounds v v ticks).min < v ∧ v < (niceBounds v v ticks).max ∧
    0 < (niceBounds v v ticks).step := by
  unfold niceBounds
  dsimp only
  set pad : ℚ := if v = 0 then 1 else |v| * (1 / 10) with hpad
  rw [show (if v = v then v - pad else v) = v - pad from if_pos rfl,
      show (if v = v then v + pad else v) = v + pad from if_pos rfl]
  have hpadpos : 0 < pad := by
    rw [hpad]
    split_ifs with h0
    · norm_num
    · nlinarith [abs_pos.mpr h0]
  have hlh : v - pad < v + pad := by linarith
  have hstep : 0 < niceStep ((v + pad - (v - pad)) / ((max 1 (ticks - 1) : ℕ) : ℚ)) :=
    niceStep_pos _
  obtain ⟨h1, h2, h3⟩ := snapped_bounds hstep hlh
  exact ⟨lt_of_le_of_lt h1 (by linarith), lt_of_lt_of_le (by linarith) h2, hstep⟩

/-- C2: for all finite `minV ≤ maxV` and any tick count, `niceBounds` (both the
`chart_core.js` version and the `chart.js` version with the collapse guard)
returns `min ≤ minV`, `max ≥ maxV`, a strictly positive step, and `min`/`max`
that are integer multiples of the step (with `max` pushed up by one step in the
`chart.js` version if the snapping would collapse `min == max`). -/
theorem c2_niceBounds_outward (minV maxV : ℚ) (ticks : ℕ) (h : minV ≤ maxV) :
    ((niceBounds minV maxV ticks).min ≤ minV ∧ maxV ≤ (niceBounds minV maxV ticks).max ∧
      0 < (niceBounds minV maxV ticks).step ∧
      (∃ k : ℤ, (niceBounds minV maxV ticks).min = (k : ℚ) * (niceBounds minV maxV ticks).step) ∧
      (∃ k : ℤ, (niceBounds minV maxV ticks).max = (k : ℚ) * (niceBounds minV maxV ticks).step)) ∧
    ((niceBoundsCJ minV maxV ticks).min ≤ minV ∧ maxV ≤ (niceBoundsCJ minV maxV ticks).max ∧
      0 < (niceBoundsCJ minV maxV ticks).step ∧
      (∃ k : ℤ, (niceBoundsCJ minV maxV ticks).min =
        (k : ℚ) * (niceBoundsCJ minV maxV ticks).step) ∧
      (∃ k : ℤ, (niceBoundsCJ minV maxV ticks).max =
        (k : ℚ) * (niceBoundsCJ minV maxV ticks).step)) := by
  obtain ⟨a1, a2, a3, _, a5, a6⟩ := niceBounds_spec minV maxV ticks h
  obtain ⟨b1, b2, b3, _, b5, b6⟩ := niceBoundsCJ_spec minV maxV ticks h
  exact ⟨⟨a1, a2, a3, a5, a6⟩, ⟨b1, b2, b3, b5, b6⟩⟩

theorem c2_niceBounds_outward_witness :
    (3 : ℚ) ≤ 7 ∧
    (((niceBounds 3 7 5).min ≤ 3 ∧ (7 : ℚ) ≤ (niceBounds 3 7 5).max ∧
      0 < (niceBounds 3 7 5).step ∧
      (∃ k : ℤ, (niceBounds 3 7 5).min = (k : ℚ) * (niceBounds 3 7 5).step) ∧
      (∃ k : ℤ, (niceBounds 3 7 5).max = (k : ℚ) * (niceBounds 3 7 5).step)) ∧
    ((niceBoundsCJ 3 7 5).min ≤ 3 ∧ (7 : ℚ) ≤ (niceBoundsCJ 3 7 5).max ∧
      0 < (niceBoundsCJ 3 7 5).step ∧
      (∃ k : ℤ, (niceBoundsCJ 3 7 5).min = (k : ℚ) * (niceBoundsCJ 3 7 5).step) ∧
      (∃ k : ℤ, (niceBoundsCJ 3 7 5).max = (k : ℚ) * (niceBoundsCJ 3 7 5).step))) :=
  ⟨by norm_num, c2_niceBounds_outward 3 7 5 (by norm_num)⟩

/-- C7: for every degenerate input `minV == maxV`, `niceBounds` pads
symmetrically and never throws: `niceBounds 5 5 5` returns `min < 5 < max` with
a positive step (concretely `{4.5, 5.5, 0.5}`), and `niceBounds 0 0 5` returns
a symmetric range around `0`, never `{0,0}`. -/
theorem c7_degenerate_padding :
    (∀ v : ℚ, ∀ ticks : ℕ, (niceBounds v v ticks).min < v ∧ v < (niceBounds v v ticks).max ∧
      0 < (niceBounds v v ticks).step) ∧
    niceBounds 5 5 5 = { min := 9/2, max := 11/2, step := 1/2 } ∧
    (niceBounds 0 0 5).min = -(niceBounds 0 0 5).max ∧
    (niceBounds 0 0 5).min < 0 ∧ 0 < (niceBounds 0 0 5).max := by
  refine ⟨fun v ticks => niceBounds_degenerate v ticks, niceBounds_five, ?_, ?_, ?_⟩
  all_goals rw [niceBounds_zero]
  all_goals norm_num

/-- A plotted point `{t, v}` (unix seconds, metric value). -/
structure Pt where
  t : ℚ
  v : ℚ
  deriving DecidableEq

/-- The path-splitting loop of `drawSeriesWithGaps` (`public/chart_core.js`
lines 114-142, identical in the other chart iterations): `prev` is the last
point drawn, `acc` is the currently open polyline in reverse order; a gap
`d.t - prevT > maxGapS` strokes the open polyline and starts a new one at
`d`. -/
def segGo (g : ℚ) (prev : Pt) (acc : List Pt) : List Pt → List (List Pt)
  | [] => [acc.reverse]
  | d :: rest =>
    if g < d.t - prev.t then acc.reverse :: segGo g d [d] rest
    else segGo g d (d :: acc) rest

/-- `buildSegments` (the spec's name for the decomposition computed by
`drawSeriesWithGaps`): the maximal polyline runs stroked for `data`, in
order.  The first point always opens a segment. -/
def buildSegments (ps : List Pt) (g : ℚ) : List (List Pt) :=
  match ps with
  | [] => []
  | p :: rest => segGo g p [p] rest

theorem segGo_flatten (g : ℚ) :
    ∀ (rest : List Pt) (prev : Pt) (acc : List Pt),
      (segGo g prev acc rest).flatten = acc.reverse ++ rest := by
  intro rest
  induction rest with
  | nil => intro prev acc; simp [segGo]
  | cons d rest ih =>
    intro prev acc
    by_cases hgap : g < d.t - prev.t
    · simp only [segGo, if_pos hgap, List.flatten_cons, ih d [d]]
      simp
    · simp only [segGo, if_neg hgap, ih d (d :: acc)]
      simp

theorem segGo_first (g : ℚ) :
    ∀ (rest : List Pt) (prev : Pt) (acc : List Pt),
      ∃ l ss, segGo g prev acc rest = (acc.reverse ++ l) :: ss := by
  intro rest
  induction rest with
  | nil => intro prev acc; exact ⟨[], [], by simp [segGo]⟩
  | cons d rest ih =>
    intro prev acc
    by_cases hgap : g < d.t - prev.t
    · exact ⟨[], segGo g d [d] rest, by simp [segGo, if_pos hgap]⟩
    · obtain ⟨l, ss, h⟩ := ih d (d :: acc)
      refine ⟨d :: l, ss, ?_⟩
      simp only [segGo, if_neg hgap, h]
      simp

theorem segGo_good (g : ℚ) :
    ∀ (rest : List Pt) (prev : Pt) (acc : List Pt),
      acc.head? = some prev → acc.reverse.Chain' (fun a b => b.t - a.t ≤ g) →
      (∀ s ∈ segGo g prev acc rest, s ≠ [] ∧ s.Chain' (fun a b => b.t - a.t ≤ g)) ∧
      (segGo g prev acc rest).Chain'
        (fun s₁ s₂ => ∀ a ∈ s₁.getLast?, ∀ b ∈ s₂.head?, g < b.t - a.t) := by
  intro rest
  induction rest with
  | nil =>
    intro prev acc hhead hchain
    have hne : acc ≠ [] := by intro h; rw [h] at hhead; simp at hhead
    constructor
    · intro s hs
      simp only [segGo, List.mem_singleton] at hs
      subst hs
      exact ⟨by simpa using hne, hchain⟩
    · simp [segGo]
  | cons d rest ih =>
    intro prev acc hhead hchain
    have hne : acc ≠ [] := by intro h; rw [h] at hhead; simp at hhead
    by_cases hgap : g < d.t - prev.t
    · obtain ⟨ihMem, ihChain⟩ := ih d [d] rfl (by simp)
      simp only [segGo, if_pos hgap]
      constructor
      · intro s hs
        rcases List.mem_cons.mp hs with hs | hs
        · subst hs
          exact ⟨by simpa using hne, hchain⟩
        · exact ihMem s hs
      · refine List.chain'_cons'.mpr ⟨?_, ihChain⟩
        intro y hy a ha b hb
        obtain ⟨l, ss, hfirst⟩ := segGo_first g rest d [d]
        rw [hfirst] at hy
        simp only [List.head?_cons, Option.mem_def, Option.some.injEq] at hy
        subst hy
        rw [List.getLast?_reverse] at ha
        rw [hhead] at ha
        simp only [Option.mem_def, Option.some.injEq] at ha
        subst ha
        simp only [List.reverse_singleton, List.singleton_append, List.head?_cons,
          Option.mem_def, Option.some.injEq] at hb
        subst hb
        exact hgap
    · have hclose : d.t - prev.t ≤ g := not_lt.mp hgap
      have hchain' : (d :: acc).reverse.Chain' (fun a b => b.t - a.t ≤ g) := by
        rw [List.reverse_cons]
        refine List.chain'_append.mpr ⟨hchain, List.chain'_singleton d, ?_⟩
        intro x hx y hy
        rw [List.getLast?_reverse, hhead] at hx
        simp only [Option.mem_def, Option.some.injEq] at hx
        simp only [List.head?_cons, Option.mem_def, Option.some.injEq] at hy
        subst hx; subst hy
        exact hclose
      have := ih d (d :: acc) rfl hchain'
      simpa only [segGo, if_neg hgap] using this

/-- C3: the segment decomposition computed by `drawSeriesWithGaps` starts a new
segment exactly at each consecutive pair whose time difference strictly exceeds
`maxGapSeconds` and otherwise extends the current segment: the segments
concatenate back to the input, every in-segment step is within the gap bound,
every boundary between consecutive segments exceeds it, and the concrete
example `[{t:0},{t:60},{t:400}]` with `maxGapSeconds = 240` yields segments
`[{0},{60}]` and `[{400}]`. -/
theorem c3_buildSegments (ps : List Pt) (g : ℚ) :
    ((buildSegments ps g).flatten = ps ∧
     (∀ s ∈ buildSegments ps g, s ≠ [] ∧ s.Chain' (fun a b => b.t - a.t ≤ g)) ∧
     (buildSegments ps g).Chain'
       (fun s₁ s₂ => ∀ a ∈ s₁.getLast?, ∀ b ∈ s₂.head?, g < b.t - a.t)) ∧
    buildSegments [Pt.mk 0 1, Pt.mk 60 2, Pt.mk 400 3] 240 =
      [[Pt.mk 0 1, Pt.mk 60 2], [Pt.mk 400 3]] := by
  constructor
  · cases ps with
    | nil => simp [buildSegments]
    | cons p rest =>
      have h1 := segGo_flatten g rest p [p]
      have h2 := segGo_good g rest p [p] rfl (by simp)
      exact ⟨by simpa using h1, h2.1, h2.2⟩
  · norm_num [buildSegments, segGo]

theorem c3_buildSegments_witness :
    [Pt.mk 0 1, Pt.mk 60 2] ≠ ([] : List Pt) ∧
    List.Chain' (fun a b => b.t - a.t ≤ (240 : ℚ)) [Pt.mk 0 1, Pt.mk 60 2] := by
  have h := c3_buildSegments [Pt.mk 0 1, Pt.mk 60 2, Pt.mk 400 3] 240
  refine h.1.2.1 [Pt.mk 0 1, Pt.mk 60 2] ?_
  rw [h.2]
  simp

/-- The gap-marker loop of `drawTimeSeriesChart` (`public/chart_core.js`
lines 310-318; same loop in `drawChart` of the unnamed `chart.js` iteration,
lines 339-348): walking the sorted reading times, a marker is drawn at the
previous timestamp whenever the next reading is more than `maxGapS` later. -/
def gapMarkersOf (g : ℚ) : List ℚ → List ℚ
  | a :: b :: rest => (if g < b - a then [a] else []) ++ gapMarkersOf g (b :: rest)
  | _ => []

/-- `buildGapMarkers` (the spec's name): the scripts first sort the reading
times in place with `(a, b) => a - b`, then run the marker loop. -/
def buildGapMarkers (times : List ℚ) (g : ℚ) : List ℚ :=
  gapMarkersOf g (List.insertionSort (· ≤ ·) times)

theorem gapMarkersOf_eq (g : ℚ) : ∀ l : List ℚ,
    gapMarkersOf g l =
      ((l.zip l.tail).filter fun p => decide (g < p.2 - p.1)).map Prod.fst := by
  intro l
  induction l with
  | nil => simp [gapMarkersOf]
  | cons a l ih =>
    cases l with
    | nil => simp [gapMarkersOf]
    | cons b rest =>
      simp only [gapMarkersOf, List.tail_cons, List.zip_cons_cons, List.filter_cons,
        List.map_cons, ih]
      by_cases h : g < b - a
      · simp [h]
      · simp [h]

/-- C4: gap markers are computed over the sorted reading timestamps, with
exactly one marker per consecutive pair differing by more than
`maxGapSeconds`, placed at the earlier (pre-gap) timestamp; in particular
`buildGapMarkers [0, 60, 400] 240` yields exactly one marker, at `t = 60`. -/
theorem c4_buildGapMarkers (times : List ℚ) (g : ℚ) :
    (buildGapMarkers times g =
      (((List.insertionSort (· ≤ ·) times).zip
          (List.insertionSort (· ≤ ·) times).tail).filter
        (fun p => decide (g < p.2 - p.1))).map Prod.fst ∧
     (List.insertionSort (· ≤ ·) times).Sorted (· ≤ ·) ∧
     (List.insertionSort (· ≤ ·) times).Perm times) ∧
    buildGapMarkers [0, 60, 400] 240 = [60] := by
  refine ⟨⟨gapMarkersOf_eq g _, List.sorted_insertionSort _ _, List.perm_insertionSort _ _⟩, ?_⟩
  norm_num [buildGapMarkers, gapMarkersOf, List.insertionSort, List.orderedInsert]

/-- A visible time window, `cutoff`/`latest` in unix seconds. -/
structure Window where
  cutoff : ℚ
  latest : ℚ
  deriving DecidableEq

/-- `DEFAULT_RANGES_HOURS` from `public/chart_core.js` lines 8-15. -/
def DEFAULT_RANGES_HOURS : List (String × ℚ) :=
  [("1h", 1), ("6h", 6), ("24h", 24), ("72h", 72), ("7d", 24 * 7), ("30d", 24 * 30)]

/-- `const hours = ranges[rangeKey] || 24` (`public/chart_core.js` line 192):
a missing key, and the falsy value `0`, fall back to 24 hours. -/
def hoursFor (ranges : List (String × ℚ)) (key : String) : ℚ :=
  match ranges.lookup key with
  | some h => if h = 0 then 24 else h
  | none => 24

/-- The window of `drawTimeSeriesChart` in `public/chart_core.js` lines
196-197: `now` is `Math.floor(opts.nowUnixSec)` when that option is supplied
and otherwise the ambient wall clock `Math.floor(Date.now() / 1000)`; the
cutoff is `now - hours * 3600`.  The ambient clock (milliseconds, as
`Date.now()` returns them) is made an explicit parameter of the embedding. -/
def windowCore (nowUnixSec : Option ℚ) (dateNowMs : ℚ) (hours : ℚ) : Window :=
  let now : ℚ := match nowUnixSec with
    | some n => (⌊n⌋ : ℚ)
    | none => (⌊dateNowMs / 1000⌋ : ℚ)
  { cutoff := now - hours * 3600, latest := now }

/-- The `maxDataT` loop of `drawTimeSeriesChart` in `public/chart.js` lines
446-452 (the variant marked "IMPORTANT FIX", same computation as `drawChart`
in the unnamed `chart.js` iteration): the running maximum of the timestamps
with a finite numeric coercion. -/
def maxLoop (acc : Option ℚ) : List JSVal → Option ℚ
  | [] => acc
  | t :: rest =>
    match toFiniteNumber t with
    | none => maxLoop acc rest
    | some v =>
      match acc with
      | none => maxLoop (some v) rest
      | some m => if m < v then maxLoop (some v) rest else maxLoop (some m) rest

def maxDataT (timestamps : List JSVal) : Option ℚ := maxLoop none timestamps

/-- The window of `public/chart.js` lines 454-462: when no finite timestamp
exists the function draws "No data" and returns before any window is computed
(modelled as `none`); otherwise the window is anchored at the latest data
timestamp: `cutoff = maxDataT - hours * 3600`. -/
def windowFix (timestamps : List JSVal) (hours : ℚ) : Option Window :=
  match maxDataT timestamps with
  | none => none
  | some m => some { cutoff := m - hours * 3600, latest := m }

/-- `xMap` from `public/chart_core.js` lines 256-258 (same formula in
`public/chart.js` lines 510-514): `padL + ((t - minT) / (maxT - minT)) *
plotW` with `padL = 60`.  There is no single-point branch: a zero denominator
would produce a non-finite coordinate in JavaScript, modelled as `none`. -/
def xMapCore (plotW minT maxT t : ℚ) : Option ℚ :=
  if maxT - minT = 0 then none
  else some (60 + ((t - minT) / (maxT - minT)) * plotW)

/-- The index-based `xMap` from `public/chart.js` lines 157-158:
`padL + (n === 1 ? plotW / 2 : (i * plotW) / (n - 1))` with `padL = 52`,
where `n = Math.max(series.length, 1)` is the sample count.  The single-point
centering branch of the repository lives here and is keyed on the sample
count, not on the window. -/
def xMapIdx (plotW : ℚ) (n : ℕ) (i : ℚ) : ℚ :=
  52 + (if n = 1 then plotW / 2 else (i * plotW) / ((n : ℚ) - 1))

theorem hoursFor_default_ge_one (key : String) : 1 ≤ hoursFor DEFAULT_RANGES_HOURS key := by
  simp only [hoursFor, DEFAULT_RANGES_HOURS, List.lookup]
  cases key == "1h" <;> cases key == "6h" <;> cases key == "24h" <;>
    cases key == "72h" <;> cases key == "7d" <;> cases key == "30d" <;> norm_num

/-- C1: the window of the `public/chart.js` variant is anchored to the latest
observed finite timestamp (`latest = maxDataT`, `cutoff = latest - hours *
3600`, and `none` with a "No data" render when no finite timestamp exists),
but the `public/chart_core.js` variant cited by the same claim anchors to the
ambient wall clock instead: at the timestamps `[100, 500]` and clock
`1700000000000 ms` it windows `[1700000000 - 86400, 1700000000]`, whose
anchor is not the maximum finite timestamp `500`. -/
theorem c1_window_anchor_bug :
    maxDataT [JSVal.num 100, JSVal.num 500] = some 500 ∧
    windowFix [JSVal.num 100, JSVal.num 500] 24 =
      some { cutoff := 500 - 24 * 3600, latest := 500 } ∧
    windowCore none 1700000000000 24 =
      { cutoff := 1700000000 - 24 * 3600, latest := 1700000000 } ∧
    (1700000000 : ℚ) ≠ 500 ∧
    maxDataT ([] : List JSVal) = none ∧
    windowFix ([] : List JSVal) 24 = none := by
  have hmax : maxDataT [JSVal.num 100, JSVal.num 500] = some 500 := by
    norm_num [maxDataT, maxLoop, toFiniteNumber]
  have hfloor : (⌊(1700000000000 : ℚ) / 1000⌋ : ℤ) = 1700000000 := by
    norm_num
  refine ⟨hmax, ?_, ?_, by norm_num, rfl, rfl⟩
  · rw [windowFix, hmax]
  · simp only [windowCore, hfloor]
    norm_num

/-- C6 (amended): the time-based mapping has no single-point branch, but for
every window the repository actually produces the denominator is nonzero: the
hour table always yields `hours ≥ 1`, so `cutoff < latest` for both window
variants and the affine formula applies; the explicit single-point centering
branch exists only in the index-based `chart.js` mapping and is keyed on
sample count `n == 1`, not on `cutoff == latest`. -/
theorem c6_xmap_no_div_zero :
    (∀ plotW minT maxT t : ℚ, minT < maxT →
      xMapCore plotW minT maxT t = some (60 + ((t - minT) / (maxT - minT)) * plotW)) ∧
    (∀ key : String, 1 ≤ hoursFor DEFAULT_RANGES_HOURS key) ∧
    (∀ nowOpt : Option ℚ, ∀ clock : ℚ, ∀ key : String,
      (windowCore nowOpt clock (hoursFor DEFAULT_RANGES_HOURS key)).cutoff <
        (windowCore nowOpt clock (hoursFor DEFAULT_RANGES_HOURS key)).latest) ∧
    (∀ ts : List JSVal, ∀ key : String, ∀ w : Window,
      windowFix ts (hoursFor DEFAULT_RANGES_HOURS key) = some w → w.cutoff < w.latest) ∧
    (∀ plotW i : ℚ, xMapIdx plotW 1 i = 52 + plotW / 2) := by
  refine ⟨?_, hoursFor_default_ge_one, ?_, ?_, ?_⟩
  · intro plotW minT maxT t h
    rw [xMapCore, if_neg]
    intro hz
    have : maxT - minT > 0 := by linarith
    linarith
  · intro nowOpt clock key
    have h1 := hoursFor_default_ge_one key
    cases nowOpt <;> simp only [windowCore] <;> nlinarith [h1]
  · intro ts key w hw
    have h1 := hoursFor_default_ge_one key
    rw [windowFix] at hw
    cases hm : maxDataT ts with
    | none => rw [hm] at hw; exact absurd hw (by simp)
    | some m =>
      rw [hm] at hw
      simp only [Option.some.injEq] at hw
      subst hw
      simp only
      nlinarith [h1]
  · intro plotW i
    rw [xMapIdx, if_pos rfl]

theorem c6_xmap_no_div_zero_witness :
    xMapCore 400 0 3600 1800 = some (60 + ((1800 - 0) / (3600 - 0)) * 400) ∧
    (Window.mk (500 - 86400) 500).cutoff < (Window.mk (500 - 86400) 500).latest := by
  have h := c6_xmap_no_div_zero
  constructor
  · exact h.1 400 0 3600 1800 (by norm_num)
  · refine h.2.2.2.1 [JSVal.num 500] "24h" (Window.mk (500 - 86400) 500) ?_
    have h24 : hoursFor DEFAULT_RANGES_HOURS "24h" = 24 := by
      simp [hoursFor, DEFAULT_RANGES_HOURS, List.lookup]
    have hmax : maxDataT [JSVal.num 500] = some 500 := by
      norm_num [maxDataT, maxLoop, toFiniteNumber]
    rw [h24, windowFix, hmax]
    norm_num

/-- C6 counterexample: the claim's single-point branch does not exist in the
time-based mapping: at a degenerate window `cutoff = latest = 100` the source
evaluates the division, yielding a non-finite coordinate (`none`), not the
centered point `padL + plotW / 2`. -/
theorem c6_no_center_branch_cx :
    xMapCore 400 100 100 100 = none ∧
    xMapCore 400 100 100 100 ≠ some (60 + 400 / 2) := by
  constructor
  · rw [xMapCore, if_pos (by norm_num)]
  · rw [xMapCore, if_pos (by norm_num)]
    simp

/-- C8 (amended): the plan computation is deterministic in its explicit inputs
together with the ambient wall clock: when `opts.nowUnixSec` is supplied the
`chart_core.js` window does not depend on the ambient clock at all, and when
it is omitted the window is exactly a function of `Date.now()`, so two
invocations with identical explicit inputs agree whenever the clock reading
is the same. -/
theorem c8_clock_independence :
    (∀ n clock₁ clock₂ hours : ℚ,
      windowCore (some n) clock₁ hours = windowCore (some n) clock₂ hours) ∧
    (∀ clock hours : ℚ, windowCore none clock hours =
      { cutoff := (⌊clock / 1000⌋ : ℚ) - hours * 3600, latest := (⌊clock / 1000⌋ : ℚ) }) := by
  constructor
  · intro n clock₁ clock₂ hours
    rfl
  · intro clock hours
    rfl

/-- C8 counterexample: with `opts.nowUnixSec` omitted, two invocations of the
`chart_core.js` window computation with identical explicit inputs but
different ambient wall-clock readings produce different windows: the
computation is not a pure function of its explicit inputs. -/
theorem c8_wallclock_dependence_cx :
    windowCore none 1000000 24 ≠ windowCore none 2000000 24 := by
  have h1 : (⌊(1000000 : ℚ) / 1000⌋ : ℤ) = 1000 := by norm_num
  have h2 : (⌊(2000000 : ℚ) / 1000⌋ : ℤ) = 2000 := by norm_num
  simp only [windowCore, h1, h2]
  intro h
  have := congrArg Window.latest h
  norm_num at this

/-- One step of the nearest-point scan shared by the hover handlers: a point
strictly closer than the best so far (`dx < bestDx`) replaces it. -/
def bestStep {α : Type} (score : α → ℚ) (acc : Option (α × ℚ)) (d : α) : Option (α × ℚ) :=
  match acc with
  | none => some (d, score d)
  | some (b, bd) => if score d < bd then some (d, score d) else some (b, bd)

/-- The full scan: `bestDx` starts at `Infinity`, modelled by the `none`
accumulator (the first candidate always wins against `Infinity`). -/
def bestScan {α : Type} (score : α → ℚ) (l : List α) : Option (α × ℚ) :=
  l.foldl (bestStep score) none

/-- The `(series, point)` pairs visited by the nested loops of the
`onmousemove` handler in `public/chart.js` lines 580-589, in scan order. -/
def hoverPairs (sl : List (String × List Pt)) : List (String × Pt) :=
  sl.flatMap fun s => s.2.map fun d => (s.1, d)

def hoverBestCJ (xMap : ℚ → ℚ) (mouseX : ℚ) (sl : List (String × List Pt)) :
    Option ((String × Pt) × ℚ) :=
  bestScan (fun p => |mouseX - xMap p.2.t|) (hoverPairs sl)

/-- The `onmousemove` handler of `public/chart.js` lines 573-601: the tooltip
is set only when `nearest && bestDx < 10`, otherwise the title is cleared
(`none`). -/
def hoverResultCJ (xMap : ℚ → ℚ) (mouseX : ℚ) (sl : List (String × List Pt)) :
    Option (String × Pt) :=
  match hoverBestCJ xMap mouseX sl with
  | some (p, bd) => if bd < 10 then some p else none
  | none => none

/-- A `readings` entry of `drawChart` in the unnamed `chart.js` iteration:
`{t, tv, rv}`. -/
structure Reading where
  t : ℚ
  tv : Option ℚ
  rv : Option ℚ
  deriving DecidableEq

def hoverBestP3 (xMap : ℚ → ℚ) (mouseX : ℚ) (rs : List Reading) :
    Option (Reading × ℚ) :=
  bestScan (fun r => |mouseX - xMap r.t|) rs

/-- The `attachHoverTitle` callback of the unnamed `chart.js` iteration, lines
364-387: `if (!best || bestDx > 10) return null`, otherwise the tooltip for
`best`. -/
def hoverResultP3 (xMap : ℚ → ℚ) (mouseX : ℚ) (rs : List Reading) : Option Reading :=
  match hoverBestP3 xMap mouseX rs with
  | some (r, bd) => if 10 < bd then none else some r
  | none => none

theorem bestScan_go {α : Type} (score : α → ℚ) :
    ∀ (l : List α) (acc : Option (α × ℚ)),
      (∀ p q, acc = some (p, q) → score p = q) →
      ((l.foldl (bestStep score) acc = none ↔ (acc = none ∧ l = [])) ∧
       (∀ a b, l.foldl (bestStep score) acc = some (a, b) →
         score a = b ∧ (a ∈ l ∨ acc = some (a, b)) ∧ (∀ x ∈ l, b ≤ score x) ∧
         (∀ p q, acc = some (p, q) → b ≤ q))) := by
  intro l
  induction l with
  | nil =>
    intro acc hwf
    refine ⟨by simp, ?_⟩
    intro a b h
    simp only [List.foldl_nil] at h
    refine ⟨hwf a b h, Or.inr h, by simp, ?_⟩
    intro p q hpq
    rw [h] at hpq
    simp only [Option.some.injEq, Prod.mk.injEq] at hpq
    exact le_of_eq hpq.2
  | cons d rest ih =>
    intro acc hwf
    have hstep : bestStep score acc d = some (d, score d) ∨
        (∃ p q, acc = some (p, q) ∧ ¬ score d < q ∧ bestStep score acc d = some (p, q)) := by
      cases acc with
      | none => exact Or.inl rfl
      | some pr =>
        obtain ⟨b0, bd0⟩ := pr
        by_cases hs : score d < bd0
        · exact Or.inl (by simp [bestStep, if_pos hs])
        · exact Or.inr ⟨b0, bd0, rfl, hs, by simp [bestStep, if_neg hs]⟩
    have hwf' : ∀ p q, bestStep score acc d = some (p, q) → score p = q := by
      intro p q hpq
      rcases hstep with hst | ⟨p0, q0, hacc, _, hst⟩
      · rw [hst] at hpq
        simp only [Option.some.injEq, Prod.mk.injEq] at hpq
        rw [← hpq.1, ← hpq.2]
      · rw [hst] at hpq
        simp only [Option.some.injEq, Prod.mk.injEq] at hpq
        rw [← hpq.1, ← hpq.2]
        exact hwf p0 q0 hacc
    obtain ⟨ihNone, ihSome⟩ := ih (bestStep score acc d) hwf'
    have haccne : bestStep score acc d ≠ none := by
      rcases hstep with hst | ⟨_, _, _, _, hst⟩ <;> simp [hst]
    constructor
    · simp only [List.foldl_cons]
      rw [ihNone]
      simp [haccne]
    · intro a b h
      simp only [List.foldl_cons] at h
      obtain ⟨h1, h2, h3, h4⟩ := ihSome a b h
      refine ⟨h1, ?_, ?_, ?_⟩
      · rcases h2 with h2 | h2
        · exact Or.inl (List.mem_cons_of_mem d h2)
        · rcases hstep with hst | ⟨p0, q0, hacc, _, hst⟩
          · rw [hst] at h2
            simp only [Option.some.injEq, Prod.mk.injEq] at h2
            refine Or.inl ?_
            rw [← h2.1]
            exact List.mem_cons_self d rest
          · rw [hst] at h2
            exact Or.inr (hacc.trans h2)
      · intro x hx
        rcases List.mem_cons.mp hx with hx | hx
        · subst hx
          rcases hstep with hst | ⟨p0, q0, hacc, hnlt, hst⟩
          · exact h4 x (score x) hst
          · have hbq : b ≤ q0 := h4 p0 q0 hst
            have hq0 : q0 ≤ score x := not_lt.mp hnlt
            linarith
        · exact h3 x hx
      · intro p q hpq
        rcases hstep with hst | ⟨p0, q0, hacc, hnlt, hst⟩
        · cases acc with
          | none => exact absurd hpq (by simp)
          | some pr =>
            obtain ⟨b0, bd0⟩ := pr
            simp only [Option.some.injEq, Prod.mk.injEq] at hpq
            have hb : b ≤ score d := h4 d (score d) hst
            by_cases hs : score d < bd0
            · rw [← hpq.2]
              linarith
            · have hfix : bestStep score (some (b0, bd0)) d = some (b0, bd0) := by
                simp [bestStep, if_neg hs]
              rw [hfix] at hst
              simp only [Option.some.injEq, Prod.mk.injEq] at hst
              rw [← hpq.2, hst.2]
              exact hb
        · have hb := h4 p0 q0 hst
          rw [hacc] at hpq
          simp only [Option.some.injEq, Prod.mk.injEq] at hpq
          rw [← hpq.2]
          exact hb

theorem bestScan_spec {α : Type} (score : α → ℚ) (l : List α) :
    (bestScan score l = none ↔ l = []) ∧
    (∀ a b, bestScan score l = some (a, b) →
      score a = b ∧ a ∈ l ∧ ∀ x ∈ l, b ≤ score x) := by
  have h := bestScan_go score l none (by simp)
  constructor
  · rw [bestScan, h.1]
    simp
  · intro a b hab
    obtain ⟨h1, h2, h3, _⟩ := h.2 a b hab
    refine ⟨h1, ?_, h3⟩
    rcases h2 with h2 | h2
    · exact h2
    · simp at h2

/-- C5 (amended): both hover lookups return a point attaining the minimum
pixel distance `|pointerX - xMap t|` over all plotted points; the unnamed
`chart.js` iteration returns `none` exactly when every plotted point is
strictly farther than `maxPixelDistance = 10`, while the `public/chart.js`
`onmousemove` handler returns `none` exactly when every plotted point is at
least 10 pixels away (a minimum distance of exactly 10 yields `none` there,
not a hit). -/
theorem c5_hover_threshold (xMap : ℚ → ℚ) (mouseX : ℚ)
    (sl : List (String × List Pt)) (rs : List Reading) :
    ((∀ p, hoverResultCJ xMap mouseX sl = some p →
        p ∈ hoverPairs sl ∧ |mouseX - xMap p.2.t| < 10 ∧
        ∀ q ∈ hoverPairs sl, |mouseX - xMap p.2.t| ≤ |mouseX - xMap q.2.t|) ∧
     (hoverResultCJ xMap mouseX sl = none ↔
        ∀ q ∈ hoverPairs sl, 10 ≤ |mouseX - xMap q.2.t|)) ∧
    ((∀ r, hoverResultP3 xMap mouseX rs = some r →
        r ∈ rs ∧ |mouseX - xMap r.t| ≤ 10 ∧
        ∀ q ∈ rs, |mouseX - xMap r.t| ≤ |mouseX - xMap q.t|) ∧
     (hoverResultP3 xMap mouseX rs = none ↔
        ∀ q ∈ rs, 10 < |mouseX - xMap q.t|)) := by
  obtain ⟨hCJnone, hCJsome⟩ := bestScan_spec (fun p => |mouseX - xMap p.2.t|) (hoverPairs sl)
  obtain ⟨hP3none, hP3some⟩ := bestScan_spec (fun r => |mouseX - xMap r.t|) rs
  refine ⟨⟨?_, ?_, ?_⟩, ?_, ?_, ?_⟩
  · intro p hp
    rw [hoverResultCJ] at hp
    cases hb : hoverBestCJ xMap mouseX sl with
    | none => rw [hb] at hp; simp at hp
    | some pr =>
      obtain ⟨p', bd⟩ := pr
      rw [hb] at hp
      simp only at hp
      by_cases hlt : bd < 10
      · rw [if_pos hlt] at hp
        simp only [Option.some.injEq] at hp
        subst hp
        obtain ⟨h1, h2, h3⟩ := hCJsome p' bd hb
        rw [h1]
        exact ⟨h2, hlt, h3⟩
      · rw [if_neg hlt] at hp
        simp at hp
  · intro hn q hq
    rw [hoverResultCJ] at hn
    cases hb : hoverBestCJ xMap mouseX sl with
    | none =>
      have hemp : hoverPairs sl = [] := hCJnone.mp hb
      rw [hemp] at hq
      simp at hq
    | some pr =>
      obtain ⟨p', bd⟩ := pr
      rw [hb] at hn
      simp only at hn
      by_cases hlt : bd < 10
      · rw [if_pos hlt] at hn
        simp at hn
      · obtain ⟨h1, h2, h3⟩ := hCJsome p' bd hb
        have h4 := h3 q hq
        simp only at h4
        have h5 := not_lt.mp hlt
        linarith
  · intro hall
    rw [hoverResultCJ]
    cases hb : hoverBestCJ xMap mouseX sl with
    | none => rfl
    | some pr =>
      obtain ⟨p', bd⟩ := pr
      obtain ⟨h1, h2, h3⟩ := hCJsome p' bd hb
      have h10 : 10 ≤ bd := by
        have h6 := hall p' h2
        rw [h1] at h6
        exact h6
      simp only
      rw [if_neg (not_lt.mpr h10)]
  · intro r hr
    rw [hoverResultP3] at hr
    cases hb : hoverBestP3 xMap mouseX rs with
    | none => rw [hb] at hr; simp at hr
    | some pr =>
      obtain ⟨r', bd⟩ := pr
      rw [hb] at hr
      simp only at hr
      by_cases hgt : 10 < bd
      · rw [if_pos hgt] at hr
        simp at hr
      · rw [if_neg hgt] at hr
        simp only [Option.some.injEq] at hr
        subst hr
        obtain ⟨h1, h2, h3⟩ := hP3some r' bd hb
        rw [h1]
        exact ⟨h2, not_lt.mp hgt, h3⟩
  · intro hn q hq
    rw [hoverResultP3] at hn
    cases hb : hoverBestP3 xMap mouseX rs with
    | none =>
      have hemp : rs = [] := hP3none.mp hb
      rw [hemp] at hq
      simp at hq
    | some pr =>
      obtain ⟨r', bd⟩ := pr
      rw [hb] at hn
      simp only at hn
      by_cases hgt : 10 < bd
      · obtain ⟨h1, h2, h3⟩ := hP3some r' bd hb
        have h4 := h3 q hq
        simp only at h4
        linarith
      · rw [if_neg hgt] at hn
        simp at hn
  · intro hall
    rw [hoverResultP3]
    cases hb : hoverBestP3 xMap mouseX rs with
    | none => rfl
    | some pr =>
      obtain ⟨r', bd⟩ := pr
      obtain ⟨h1, h2, h3⟩ := hP3some r' bd hb
      have h10 : 10 < bd := by
        have h6 := hall r' h2
        rw [h1] at h6
        exact h6
      simp only
      rw [if_pos h10]

theorem c5_hover_threshold_witness :
    ("Temp", Pt.mk 5 1) ∈ hoverPairs [("Temp", [Pt.mk 5 1])] ∧
    |(0 : ℚ) - (fun t => t) (Pt.mk 5 1).t| < 10 := by
  have h := c5_hover_threshold (fun t => t) 0 [("Temp", [Pt.mk 5 1])] []
  have heval : hoverResultCJ (fun t => t) 0 [("Temp", [Pt.mk 5 1])] =
      some ("Temp", Pt.mk 5 1) := by
    simp only [hoverResultCJ, hoverBestCJ, bestScan, bestStep, hoverPairs, List.flatMap_cons,
      List.map_cons, List.map_nil, List.flatMap_nil, List.append_nil, List.foldl_cons,
      List.foldl_nil]
    norm_num
  have hs := h.1.1 ("Temp", Pt.mk 5 1) heval
  exact ⟨hs.1, hs.2.1⟩

/-- C5 counterexample: in the `public/chart.js` `onmousemove` handler, a
plotted point at pixel distance exactly 10 (which does not exceed the
10-pixel cutoff) still yields `none`: the lookup is `none` even though the
minimum distance does not exceed `maxPixelDistance`. -/
theorem c5_hover_boundary_cx :
    hoverResultCJ (fun t => t) 0 [("Temp", [Pt.mk 10 1])] = none ∧
    hoverPairs [("Temp", [Pt.mk 10 1])] ≠ [] ∧
    ¬ (10 : ℚ) < |(0 : ℚ) - (fun t => t) (Pt.mk 10 1).t| := by
  refine ⟨?_, by simp [hoverPairs], by norm_num⟩
  simp only [hoverResultCJ, hoverBestCJ, bestScan, bestStep, hoverPairs, List.flatMap_cons,
    List.map_cons, List.map_nil, List.flatMap_nil, List.append_nil, List.foldl_cons,
    List.foldl_nil]
  norm_num

/-- `allVals.length ? Math.min(...allVals) : 0` (`public/chart_core.js` line
265): the spread form of `Math.min` is a fold over the gathered values. -/
def minVOf : List ℚ → ℚ
  | [] => 0
  | x :: xs => xs.foldl min x

/-- `allVals.length ? Math.max(...allVals) : 1` (line 266). -/
def maxVOf : List ℚ → ℚ
  | [] => 1
  | x :: xs => xs.foldl max x

/-- `plotH = Math.max(1, H - padT - padB)` with `padT = 20`, `padB = 50`
(`public/chart_core.js` lines 249-253). -/
def plotHOf (H : ℚ) : ℚ := max 1 (H - 20 - 50)

/-- `yB = niceBounds(minV, maxV, 5)` (`public/chart_core.js` line 267). -/
def yBoundsOf (vals : List ℚ) : Bounds := niceBounds (minVOf vals) (maxVOf vals) 5

/-- `yMap` from `public/chart_core.js` lines 269-270:
`padT + (1 - (v - yB.min) / (yB.max - yB.min)) * plotH`. -/
def yMapCore (H : ℚ) (vals : List ℚ) (v : ℚ) : ℚ :=
  20 + (1 - (v - (yBoundsOf vals).min) / ((yBoundsOf vals).max - (yBoundsOf vals).min)) *
    plotHOf H

theorem foldl_min_spec : ∀ (xs : List ℚ) (x : ℚ),
    xs.foldl min x ≤ x ∧ ∀ v ∈ xs, xs.foldl min x ≤ v := by
  intro xs
  induction xs with
  | nil => intro x; exact ⟨le_refl x, by simp⟩
  | cons y ys ih =>
    intro x
    obtain ⟨h1, h2⟩ := ih (min x y)
    simp only [List.foldl_cons]
    refine ⟨h1.trans (min_le_left x y), ?_⟩
    intro v hv
    rcases List.mem_cons.mp hv with hv | hv
    · rw [hv]
      exact h1.trans (min_le_right x y)
    · exact h2 v hv

theorem foldl_max_spec : ∀ (xs : List ℚ) (x : ℚ),
    x ≤ xs.foldl max x ∧ ∀ v ∈ xs, v ≤ xs.foldl max x := by
  intro xs
  induction xs with
  | nil => intro x; exact ⟨le_refl x, by simp⟩
  | cons y ys ih =>
    intro x
    obtain ⟨h1, h2⟩ := ih (max x y)
    simp only [List.foldl_cons]
    refine ⟨(le_max_left x y).trans h1, ?_⟩
    intro v hv
    rcases List.mem_cons.mp hv with hv | hv
    · rw [hv]
      exact (le_max_right x y).trans h1
    · exact h2 v hv

theorem minVOf_le (vals : List ℚ) : ∀ v ∈ vals, minVOf vals ≤ v := by
  cases vals with
  | nil => simp
  | cons x xs =>
    intro v hv
    rcases List.mem_cons.mp hv with hv | hv
    · rw [hv]
      simp only [minVOf]
      exact (foldl_min_spec xs x).1
    · simp only [minVOf]
      exact (foldl_min_spec xs x).2 v hv

theorem le_maxVOf (vals : List ℚ) : ∀ v ∈ vals, v ≤ maxVOf vals := by
  cases vals with
  | nil => simp
  | cons x xs =>
    intro v hv
    rcases List.mem_cons.mp hv with hv | hv
    · rw [hv]
      simp only [maxVOf]
      exact (foldl_max_spec xs x).1
    · simp only [maxVOf]
      exact (foldl_max_spec xs x).2 v hv

/-- C9: for every draw with at least one in-window finite value, the computed
Y bounds contain every plotted value, so every mapped `yMap v` lies within
the vertical plot area `[padT, padT + plotH]` (`padT = 20`). -/
theorem c9_ymap_in_plot (H : ℚ) (vals : List ℚ) (_hne : vals ≠ []) :
    ∀ v ∈ vals, 20 ≤ yMapCore H vals v ∧ yMapCore H vals v ≤ 20 + plotHOf H := by
  intro v hv
  have hlo := minVOf_le vals v hv
  have hhi := le_maxVOf vals v hv
  have hmm : minVOf vals ≤ maxVOf vals := le_trans hlo hhi
  obtain ⟨b1, b2, _, b4, _, _⟩ := niceBounds_spec (minVOf vals) (maxVOf vals) 5 hmm
  have hvlo : (yBoundsOf vals).min ≤ v := by
    rw [yBoundsOf]
    exact le_trans b1 hlo
  have hvhi : v ≤ (yBoundsOf vals).max := by
    rw [yBoundsOf]
    exact le_trans hhi b2
  have hD : 0 < (yBoundsOf vals).max - (yBoundsOf vals).min := by
    rw [yBoundsOf]
    linarith [b4]
  have hplot : (1 : ℚ) ≤ plotHOf H := le_max_left 1 _
  rw [yMapCore]
  set r : ℚ := (v - (yBoundsOf vals).min) / ((yBoundsOf vals).max - (yBoundsOf vals).min)
    with hrdef
  have hr0 : 0 ≤ r := by
    rw [hrdef]
    exact div_nonneg (by linarith) hD.le
  have hr1 : r ≤ 1 := by
    rw [hrdef, div_le_one hD]
    linarith
  constructor
  · have hm := mul_nonneg (by linarith : (0 : ℚ) ≤ 1 - r) (by linarith : (0 : ℚ) ≤ plotHOf H)
    linarith
  · have hm := mul_le_of_le_one_left (by linarith : (0 : ℚ) ≤ plotHOf H)
      (by linarith : (1 : ℚ) - r ≤ 1)
    linarith

theorem c9_ymap_in_plot_witness :
    20 ≤ yMapCore 170 [5] 5 ∧ yMapCore 170 [5] 5 ≤ 20 + plotHOf 170 :=
  c9_ymap_in_plot 170 [5] (by simp) 5 (by simp)

/-- One entry of `opts.series` as the filtering loop of `drawTimeSeriesChart`
reads it (only the fields that loop touches): `values` is `none` when the
field is missing or not an array. -/
structure SeriesIn where
  name : Option String
  values : Option (List JSVal)

/-- `const arr = Array.isArray(rawArr) ? rawArr : []`
(`public/chart_core.js` lines 223-224). -/
def seriesArr (s : SeriesIn) : List JSVal := s.values.getD []

/-- The per-series filtering of `drawTimeSeriesChart` (`public/chart_core.js`
lines 215-233): for each index of `timestamps`, skip timestamps without a
finite coercion or outside `[cutoff, now]`, then skip indices whose value
entry has no finite coercion (an out-of-bounds `arr[i]` reads `undefined`,
which coerces to `NaN`); the surviving `{t, v}` pairs are pushed in index
order. -/
def seriesPoints (cutoff latest : ℚ) (s : SeriesIn) (ts : List JSVal) : List Pt :=
  (List.range ts.length).filterMap fun i =>
    match toFiniteNumber (atIdx ts i) with
    | none => none
    | some t =>
      if t < cutoff ∨ latest < t then none
      else
        match toFiniteNumber (atIdx (seriesArr s) i) with
        | none => none
        | some v => some (Pt.mk t v)

/-- C10: a series whose `values` field is missing or not an array contributes
no points, and when `values` is shorter than `timestamps` the absent entries
behave as missing readings: every emitted point originates at an index that
is in bounds for both arrays, so no out-of-bounds access is observable and
the computation is total. -/
theorem c10_short_values_safe (cutoff latest : ℚ) (nm : Option String)
    (vs ts : List JSVal) :
    seriesPoints cutoff latest (SeriesIn.mk nm none) ts = [] ∧
    ∀ p ∈ seriesPoints cutoff latest (SeriesIn.mk nm (some vs)) ts,
      ∃ i, i < ts.length ∧ i < vs.length ∧
        toFiniteNumber (atIdx ts i) = some p.t ∧
        toFiniteNumber (atIdx vs i) = some p.v := by
  constructor
  · rw [seriesPoints]
    rw [List.filterMap_eq_nil_iff]
    intro i hi
    cases hft : toFiniteNumber (atIdx ts i) with
    | none => simp [hft]
    | some t =>
      simp only [hft]
      by_cases hw : t < cutoff ∨ latest < t
      · rw [if_pos hw]
      · rw [if_neg hw]
        have harr : seriesArr (SeriesIn.mk nm none) = [] := rfl
        rw [harr]
        simp [atIdx, toFiniteNumber]
  · intro p hp
    rw [seriesPoints] at hp
    obtain ⟨i, hi, hfi⟩ := List.mem_filterMap.mp hp
    have hilt : i < ts.length := List.mem_range.mp hi
    cases hft : toFiniteNumber (atIdx ts i) with
    | none => rw [hft] at hfi; simp at hfi
    | some t =>
      rw [hft] at hfi
      simp only at hfi
      by_cases hw : t < cutoff ∨ latest < t
      · rw [if_pos hw] at hfi
        simp at hfi
      · rw [if_neg hw] at hfi
        have hvs : seriesArr (SeriesIn.mk nm (some vs)) = vs := rfl
        rw [hvs] at hfi
        cases hfv : toFiniteNumber (atIdx vs i) with
        | none => rw [hfv] at hfi; simp at hfi
        | some v =>
          rw [hfv] at hfi
          simp only [Option.some.injEq] at hfi
          subst hfi
          have hivs : i < vs.length := by
            by_contra hge
            have hget : atIdx vs i = JSVal.undef := by
              rw [atIdx]
              exact List.getD_eq_default vs JSVal.undef (by omega)
            rw [hget] at hfv
            simp [toFiniteNumber] at hfv
          exact ⟨i, hilt, hivs, hft, hfv⟩

theorem c10_short_values_safe_witness :
    ∃ i, i < [JSVal.num 50].length ∧ i < [JSVal.num 5].length ∧
      toFiniteNumber (atIdx [JSVal.num 50] i) = some (Pt.mk 50 5).t ∧
      toFiniteNumber (atIdx [JSVal.num 5] i) = some (Pt.mk 50 5).v := by
  have h := c10_short_values_safe 0 100 none [JSVal.num 5] [JSVal.num 50]
  refine h.2 (Pt.mk 50 5) ?_
  have hrange : List.range 1 = [0] := rfl
  rw [seriesPoints]
  simp only [List.length_cons, List.length_nil, hrange, List.filterMap_cons, List.filterMap_nil]
  norm_num [atIdx, toFiniteNumber, seriesArr]
